import Mathlib

/-!
Verification of the fused LayerNorm CUDA kernels of
`src/operator/nn/layer_norm.cu` (sxjscience/mxnet), over an
exact-arithmetic shallow embedding: the device scalar type `DType` is
modelled by `ℚ`, device buffers by total functions `ℕ → ℚ`, and each
kernel loop by a structurally recursive function.  Lock-step warp
shuffles are modelled as simultaneous functional updates of the
per-lane state.
-/

namespace LayerNormCu

/-- The running statistics triple `(mean, sigma2, count)` threaded through
`StepWelfordOnlineSum` / `ChanMergePartition` in the kernels.  The source
keeps `count` in the floating scalar type `DType`, hence `ℚ` here. -/
@[ext] structure WTriple where
  mean : ℚ
  sigma2 : ℚ
  count : ℚ
  deriving DecidableEq, Repr

/-- The all-zero triple each thread starts from (lines 160-162 of the
forward kernel). -/
def zeroTriple : WTriple := ⟨0, 0, 0⟩

/-- `StepWelfordOnlineSum` (layer_norm.cu lines 72-81): one update step of
Welford's online mean/variance algorithm, accumulating `curr` into the
triple. -/
def stepWelfordOnlineSum (curr : ℚ) (t : WTriple) : WTriple :=
  let count := t.count + 1
  let delta := curr - t.mean
  let mean := t.mean + delta / count
  let sigma2 := t.sigma2 + delta * (curr - mean)
  ⟨mean, sigma2, count⟩

/-- Folding `StepWelfordOnlineSum` over a finite sequence of scalar values,
starting from the all-zero triple. -/
def welfordFold (L : List ℚ) : WTriple :=
  L.foldl (fun t c => stepWelfordOnlineSum c t) zeroTriple

/-- `ChanMergePartition` (layer_norm.cu lines 90-110): merge the
`(mean, sigma2, count)` triple `lhs` into `rhs` using Chan's parallel
variance-merge formula.  The source mutates the rhs triple in place; the
returned triple is its final value. -/
def chanMergePartition (lhs rhs : WTriple) : WTriple :=
  let delta := rhs.mean - lhs.mean
  let count := lhs.count + rhs.count
  if 0 < count then
    let nA := lhs.count / count
    let nB := rhs.count / count
    { mean := nA * lhs.mean + nB * rhs.mean
      sigma2 := rhs.sigma2 + lhs.sigma2 + delta * delta * nA * nB * count
      count := count }
  else
    { mean := 0, sigma2 := 0, count := count }

/-! ### The naive two-pass reference statistics

The spec's reference computation: first pass sums the values, the second
pass sums squared deviations from the sample mean. -/

/-- First pass: plain sum of the sequence. -/
def lsum (L : List ℚ) : ℚ := L.sum

/-- Sum of squares of the sequence (used to restate the two-pass result
algebraically). -/
def lsumSq (L : List ℚ) : ℚ := (L.map (fun x => x * x)).sum

/-- Sample mean of the sequence (`0` for the empty sequence, since `0/0 = 0`
in `ℚ`). -/
def listMean (L : List ℚ) : ℚ := lsum L / (L.length : ℚ)

/-- Sum of squared deviations from a given center `m`. -/
def sqDevSum (m : ℚ) (L : List ℚ) : ℚ :=
  (L.map (fun x => (x - m) * (x - m))).sum

/-- Second pass: sum of squared deviations from the sample mean. -/
def listM2 (L : List ℚ) : ℚ := sqDevSum (listMean L) L

/-- Population variance of the sequence by the naive two-pass computation. -/
def popVariance (L : List ℚ) : ℚ := listM2 L / (L.length : ℚ)

/-- The exact statistics triple summarizing a finite multiset of values. -/
def summary (L : List ℚ) : WTriple :=
  ⟨listMean L, listM2 L, (L.length : ℚ)⟩

lemma lsum_nil : lsum [] = 0 := rfl

lemma lsum_append (A B : List ℚ) : lsum (A ++ B) = lsum A + lsum B := by
  simp [lsum]

lemma lsumSq_append (A B : List ℚ) : lsumSq (A ++ B) = lsumSq A + lsumSq B := by
  simp [lsumSq]

lemma sqDevSum_eq (m : ℚ) (L : List ℚ) :
    sqDevSum m L = lsumSq L - 2 * m * lsum L + m * m * (L.length : ℚ) := by
  induction L with
  | nil => simp [sqDevSum, lsumSq, lsum]
  | cons x xs ih =>
    simp only [sqDevSum, lsumSq, lsum, List.map_cons, List.sum_cons,
      List.length_cons, Nat.cast_succ] at ih ⊢
    rw [ih]
    ring

lemma listM2_eq (L : List ℚ) :
    listM2 L = lsumSq L - lsum L * lsum L / (L.length : ℚ) := by
  rcases eq_or_ne L [] with rfl | h
  · simp [listM2, sqDevSum, lsumSq, lsum]
  · have hn : ((L.length : ℚ)) ≠ 0 :=
      Nat.cast_ne_zero.mpr (List.length_pos.mpr h).ne'
    rw [listM2, sqDevSum_eq, listMean]
    field_simp
    ring

lemma summary_eq (L : List ℚ) :
    summary L = ⟨lsum L / (L.length : ℚ),
      lsumSq L - lsum L * lsum L / (L.length : ℚ), (L.length : ℚ)⟩ := by
  rw [summary, listM2_eq]
  rfl

lemma summary_nil : summary [] = zeroTriple := by
  simp [summary_eq, lsum, lsumSq, zeroTriple]

lemma summary_count (L : List ℚ) : (summary L).count = (L.length : ℚ) := rfl

/-- The summary triple only depends on the sum, sum of squares and length,
all of which are invariant under swapping the two halves of an append. -/
lemma summary_append_comm (A B : List ℚ) :
    summary (A ++ B) = summary (B ++ A) := by
  rw [summary_eq, summary_eq]
  simp only [lsum_append, lsumSq_append, List.length_append]
  rw [add_comm (lsum A), add_comm (lsumSq A), Nat.add_comm A.length B.length]

lemma chanMerge_zero_left (t : WTriple) (h : 0 < t.count) :
    chanMergePartition zeroTriple t = t := by
  have hc : (0 : ℚ) + t.count = t.count := zero_add _
  have hne : t.count ≠ 0 := ne_of_gt h
  rw [chanMergePartition]
  simp only [zeroTriple, hc]
  rw [if_pos h]
  refine WTriple.ext ?_ ?_ ?_
  · simp [div_self hne]
  · simp [div_self hne]
  · rfl

lemma chanMerge_zero_right (t : WTriple) (h : 0 < t.count) :
    chanMergePartition t zeroTriple = t := by
  have hc : t.count + (0 : ℚ) = t.count := add_zero _
  have hne : t.count ≠ 0 := ne_of_gt h
  rw [chanMergePartition]
  simp only [zeroTriple, hc]
  rw [if_pos h]
  refine WTriple.ext ?_ ?_ ?_
  · simp [div_self hne]
  · simp
  · rfl

/-- Key algebraic fact: `ChanMergePartition` applied to the exact summaries
of two partitions yields the exact summary of their union. -/
lemma merge_summary (A B : List ℚ) :
    chanMergePartition (summary A) (summary B) = summary (A ++ B) := by
  rcases eq_or_ne A [] with rfl | hA
  · rcases eq_or_ne B [] with rfl | hB
    · rw [summary_nil, List.nil_append, summary_nil]
      norm_num [chanMergePartition, zeroTriple]
    · have hB0 : (0 : ℚ) < (summary B).count := by
        rw [summary_count]
        exact_mod_cast List.length_pos.mpr hB
      rw [summary_nil, chanMerge_zero_left _ hB0, List.nil_append]
  · rcases eq_or_ne B [] with rfl | hB
    · have hA0 : (0 : ℚ) < (summary A).count := by
        rw [summary_count]
        exact_mod_cast List.length_pos.mpr hA
      rw [summary_nil, chanMerge_zero_right _ hA0, List.append_nil]
    · have ha : ((A.length : ℚ)) ≠ 0 :=
        Nat.cast_ne_zero.mpr (List.length_pos.mpr hA).ne'
      have hb : ((B.length : ℚ)) ≠ 0 :=
        Nat.cast_ne_zero.mpr (List.length_pos.mpr hB).ne'
      have hapos : (0 : ℚ) < (A.length : ℚ) := by
        exact_mod_cast List.length_pos.mpr hA
      have hbpos : (0 : ℚ) < (B.length : ℚ) := by
        exact_mod_cast List.length_pos.mpr hB
      have hab : ((A.length : ℚ)) + (B.length : ℚ) ≠ 0 :=
        ne_of_gt (add_pos hapos hbpos)
      rw [summary_eq A, summary_eq B, summary_eq (A ++ B), chanMergePartition]
      simp only [lsum_append, lsumSq_append, List.length_append]
      rw [if_pos (add_pos hapos hbpos)]
      refine WTriple.ext ?_ ?_ ?_
      · show (A.length : ℚ) / ((A.length : ℚ) + (B.length : ℚ)) * (lsum A / (A.length : ℚ))
          + (B.length : ℚ) / ((A.length : ℚ) + (B.length : ℚ)) * (lsum B / (B.length : ℚ))
          = (lsum A + lsum B) / (((A.length + B.length : ℕ) : ℚ))
        push_cast
        field_simp
        ring
      · show (lsumSq B - lsum B * lsum B / (B.length : ℚ))
          + (lsumSq A - lsum A * lsum A / (A.length : ℚ))
          + (lsum B / (B.length : ℚ) - lsum A / (A.length : ℚ))
            * (lsum B / (B.length : ℚ) - lsum A / (A.length : ℚ))
            * ((A.length : ℚ) / ((A.length : ℚ) + (B.length : ℚ)))
            * ((B.length : ℚ) / ((A.length : ℚ) + (B.length : ℚ)))
            * ((A.length : ℚ) + (B.length : ℚ))
          = lsumSq A + lsumSq B
            - (lsum A + lsum B) * (lsum A + lsum B) / (((A.length + B.length : ℕ) : ℚ))
        push_cast
        field_simp
        ring
      · rw [Nat.cast_add]

/-! ### Welford's online algorithm computes the two-pass statistics (C1) -/

lemma welfordFold_nil : welfordFold [] = zeroTriple := rfl

lemma welfordFold_append_singleton (L : List ℚ) (x : ℚ) :
    welfordFold (L ++ [x]) = stepWelfordOnlineSum x (welfordFold L) := by
  simp [welfordFold, List.foldl_append]

/-- One Welford step turns the exact summary of `L` into the exact summary
of `L ++ [x]`. -/
lemma step_summary (x : ℚ) (L : List ℚ) :
    stepWelfordOnlineSum x (summary L) = summary (L ++ [x]) := by
  rcases eq_or_ne L [] with rfl | h
  · rw [summary_nil]
    norm_num [stepWelfordOnlineSum, zeroTriple, summary_eq, lsum, lsumSq]
  · have hn : ((L.length : ℚ)) ≠ 0 :=
      Nat.cast_ne_zero.mpr (List.length_pos.mpr h).ne'
    have hn1 : ((L.length : ℚ)) + 1 ≠ 0 := by positivity
    rw [summary_eq, summary_eq, stepWelfordOnlineSum]
    simp only [lsum_append, lsumSq_append, List.length_append]
    refine WTriple.ext ?_ ?_ ?_
    · show lsum L / (L.length : ℚ)
        + (x - lsum L / (L.length : ℚ)) / ((L.length : ℚ) + 1)
        = (lsum L + lsum [x]) / (((L.length + [x].length : ℕ) : ℚ))
      simp only [lsum, List.sum_cons, List.sum_nil, List.length_cons, List.length_nil]
      push_cast
      field_simp
      ring
    · show lsumSq L - lsum L * lsum L / (L.length : ℚ)
        + (x - lsum L / (L.length : ℚ))
          * (x - (lsum L / (L.length : ℚ)
              + (x - lsum L / (L.length : ℚ)) / ((L.length : ℚ) + 1)))
        = lsumSq L + lsumSq [x]
          - (lsum L + lsum [x]) * (lsum L + lsum [x]) / (((L.length + [x].length : ℕ) : ℚ))
      simp only [lsum, lsumSq, List.map_cons, List.map_nil, List.sum_cons, List.sum_nil,
        List.length_cons, List.length_nil]
      push_cast
      field_simp
      ring
    · show (L.length : ℚ) + 1 = (((L.length + [x].length : ℕ) : ℚ))
      simp only [List.length_singleton]
      push_cast
      ring

/-- Folding the Welford step over any finite sequence produces exactly the
two-pass summary triple. -/
lemma welfordFold_eq_summary (L : List ℚ) : welfordFold L = summary L := by
  induction L using List.reverseRecOn with
  | nil => rw [welfordFold_nil, summary_nil]
  | append_singleton L x ih => rw [welfordFold_append_singleton, ih, step_summary]

/-! ### `BlockWelfordOnlineSum` (layer_norm.cu lines 113-134)

Thread `tid` of `nthread` accumulates its strided share of the `nchannel`
column values: a first loop handles aligned 4-wide chunks starting at
`l = 4 * tid` and striding by `4 * nthread`, a second loop handles the
remaining elements one at a time.  The loops are modelled with a fuel
argument (instantiated with `nchannel`, an upper bound on the iteration
count for every launch, all of which use `nthread ≥ 32`). -/

/-- First loop of `BlockWelfordOnlineSum` (lines 124-130): 4-wide unrolled
accumulation.  Returns the updated triple together with the final value of
`l`, from which the second loop continues. -/
def blockWelfordLoop1 (nthread : ℕ) (vals : ℕ → ℚ) (nchannel : ℕ) :
    ℕ → ℕ → WTriple → WTriple × ℕ
  | 0, l, t => (t, l)
  | fuel + 1, l, t =>
    if l + 3 < nchannel then
      let t1 := stepWelfordOnlineSum (vals l) t
      let t2 := stepWelfordOnlineSum (vals (l + 1)) t1
      let t3 := stepWelfordOnlineSum (vals (l + 2)) t2
      let t4 := stepWelfordOnlineSum (vals (l + 3)) t3
      blockWelfordLoop1 nthread vals nchannel fuel (l + 4 * nthread) t4
    else (t, l)

/-- Second loop of `BlockWelfordOnlineSum` (lines 131-133): leftover
elements accumulated one at a time. -/
def blockWelfordLoop2 (vals : ℕ → ℚ) (nchannel : ℕ) : ℕ → ℕ → WTriple → WTriple
  | 0, _, t => t
  | fuel + 1, l, t =>
    if l < nchannel then
      blockWelfordLoop2 vals nchannel fuel (l + 1) (stepWelfordOnlineSum (vals l) t)
    else t

/-- `BlockWelfordOnlineSum` (lines 113-134). -/
def blockWelfordOnlineSum (tid nthread : ℕ) (vals : ℕ → ℚ) (nchannel : ℕ) : WTriple :=
  let r := blockWelfordLoop1 nthread vals nchannel nchannel (4 * tid) zeroTriple
  blockWelfordLoop2 vals nchannel nchannel r.2 r.1

/-- A thread whose starting offset `4 * tid` is already past the channel
count accumulates nothing and keeps the all-zero triple. -/
lemma blockWelford_no_elements (tid nthread nchannel : ℕ) (vals : ℕ → ℚ)
    (hc : nchannel ≤ 4 * tid) :
    blockWelfordOnlineSum tid nthread vals nchannel = zeroTriple := by
  rcases nchannel with _ | m
  · rfl
  · have h1 : blockWelfordLoop1 nthread vals (m + 1) (m + 1) (4 * tid) zeroTriple
        = (zeroTriple, 4 * tid) := by
      rw [blockWelfordLoop1, if_neg (by omega)]
    simp only [blockWelfordOnlineSum, h1]
    rw [blockWelfordLoop2, if_neg (by omega)]

/-! ### The intra-warp all-reduce (layer_norm.cu lines 170-181)

The forward kernel runs five exchange-and-merge rounds `l = 0..4`: every
lane `i` simultaneously reads the triple of source lane
`(threadIdx.x + (1 << l)) & 31` — i.e. `(i + 2^l) % 32` — via warp
shuffle and merges it into its own triple with `ChanMergePartition`. -/

/-- One exchange-and-merge round with shift distance `d`: the lane state
is updated simultaneously on all lanes, as the lock-step shuffle does. -/
def warpRound (d : ℕ) (st : ℕ → WTriple) : ℕ → WTriple :=
  fun i => chanMergePartition (st ((i + d) % 32)) (st i)

/-- The five rounds with distances `2^0 .. 2^4` (lines 175-181). -/
def warpAllReduce (st : ℕ → WTriple) : ℕ → WTriple :=
  warpRound 16 (warpRound 8 (warpRound 4 (warpRound 2 (warpRound 1 st))))

/-- The concatenated contents of the `n` consecutive lanes starting at
lane `i % 32`, wrapping around the warp. -/
def seg (Ls : ℕ → List ℚ) : ℕ → ℕ → List ℚ
  | _, 0 => []
  | i, n + 1 => Ls (i % 32) ++ seg Ls (i + 1) n

lemma seg_congr (Ls : ℕ → List ℚ) :
    ∀ n i j, i % 32 = j % 32 → seg Ls i n = seg Ls j n := by
  intro n
  induction n with
  | zero => intro i j _; rfl
  | succ n ih =>
    intro i j h
    show Ls (i % 32) ++ seg Ls (i + 1) n = Ls (j % 32) ++ seg Ls (j + 1) n
    rw [h, ih (i + 1) (j + 1) (by omega)]

lemma seg_add (Ls : ℕ → List ℚ) :
    ∀ m i n, seg Ls i (m + n) = seg Ls i m ++ seg Ls (i + m) n := by
  intro m
  induction m with
  | zero =>
    intro i n
    rw [Nat.zero_add, Nat.add_zero]
    rfl
  | succ m ih =>
    intro i n
    show seg Ls i (m + 1 + n) = (Ls (i % 32) ++ seg Ls (i + 1) m) ++ seg Ls (i + (m + 1)) n
    rw [show m + 1 + n = (m + n) + 1 from by omega]
    show Ls (i % 32) ++ seg Ls (i + 1) (m + n) = _
    rw [ih (i + 1) n, show i + 1 + m = i + (m + 1) from by omega, List.append_assoc]

lemma seg_one (Ls : ℕ → List ℚ) (i : ℕ) : seg Ls i 1 = Ls (i % 32) := by
  show Ls (i % 32) ++ seg Ls (i + 1) 0 = Ls (i % 32)
  rw [show seg Ls (i + 1) 0 = [] from rfl, List.append_nil]

lemma seg_nil (Ls : ℕ → List ℚ) :
    ∀ n i, (∀ k, k < n → Ls ((i + k) % 32) = []) → seg Ls i n = [] := by
  intro n
  induction n with
  | zero => intro i _; rfl
  | succ n ih =>
    intro i h
    show Ls (i % 32) ++ seg Ls (i + 1) n = []
    have h0 : Ls (i % 32) = [] := by
      have := h 0 (Nat.succ_pos n)
      rwa [Nat.add_zero] at this
    rw [h0, List.nil_append]
    exact ih (i + 1) fun k hk => by
      have := h (k + 1) (by omega)
      rwa [show i + (k + 1) = i + 1 + k from by omega] at this

/-- One round doubles the wrap-around segment each lane's triple
summarizes. -/
lemma warpRound_seg (Ls : ℕ → List ℚ) (st : ℕ → WTriple) (n : ℕ)
    (hst : ∀ i, i < 32 → st i = summary (seg Ls i n)) :
    ∀ i, i < 32 → warpRound n st i = summary (seg Ls i (n + n)) := by
  intro i hi
  have h1 : (i + n) % 32 < 32 := Nat.mod_lt _ (by norm_num)
  rw [warpRound, hst _ h1, hst _ hi, merge_summary, summary_append_comm,
    seg_congr Ls n ((i + n) % 32) (i + n) (by omega), ← seg_add]

/-- After the five rounds, every lane's triple summarizes the whole warp's
contents starting from its own lane. -/
lemma warpAllReduce_seg (Ls : ℕ → List ℚ) (st : ℕ → WTriple)
    (hst : ∀ i, i < 32 → st i = summary (Ls i)) :
    ∀ i, i < 32 → warpAllReduce st i = summary (seg Ls i 32) := by
  have h0 : ∀ i, i < 32 → st i = summary (seg Ls i 1) := by
    intro i hi
    rw [hst _ hi, seg_one, Nat.mod_eq_of_lt hi]
  have h1 := warpRound_seg Ls st 1 h0
  have h2 := warpRound_seg Ls _ 2 h1
  have h4 := warpRound_seg Ls _ 4 h2
  have h8 := warpRound_seg Ls _ 8 h4
  have h16 := warpRound_seg Ls _ 16 h8
  exact h16

/-- Rotating the warp start lane does not change the summarized
aggregate. -/
lemma summary_seg_rotate (Ls : ℕ → List ℚ) (i : ℕ) (hi : i < 32) :
    summary (seg Ls i 32) = summary (seg Ls 0 32) := by
  have hsplit1 : seg Ls 0 32 = seg Ls 0 i ++ seg Ls i (32 - i) := by
    have h := seg_add Ls i 0 (32 - i)
    rw [show i + (32 - i) = 32 from by omega, Nat.zero_add] at h
    exact h
  have hsplit2 : seg Ls i 32 = seg Ls i (32 - i) ++ seg Ls 0 i := by
    have h := seg_add Ls (32 - i) i i
    rw [show 32 - i + i = 32 from by omega] at h
    rw [h, seg_congr Ls i (i + (32 - i)) 0 (by omega)]
  rw [hsplit1, hsplit2, summary_append_comm]

lemma seg_eq_flatten (Ls : ℕ → List ℚ) :
    ∀ n i, i + n ≤ 32 → seg Ls i n = ((List.range n).map (fun k => Ls (i + k))).flatten := by
  intro n
  induction n with
  | zero => intro i _; rfl
  | succ n ih =>
    intro i h
    show Ls (i % 32) ++ seg Ls (i + 1) n = _
    rw [Nat.mod_eq_of_lt (by omega), ih (i + 1) (by omega), List.range_succ_eq_map]
    simp only [List.map_cons, List.map_map, List.flatten_cons, Nat.add_zero]
    have hfun : ((fun k => Ls (i + k)) ∘ Nat.succ) = fun k => Ls (i + 1 + k) := by
      funext k
      show Ls (i + (k + 1)) = Ls (i + 1 + k)
      rw [show i + (k + 1) = i + 1 + k from by omega]
    rw [hfun]

end LayerNormCu

namespace LayerNormCu

/-! ### Claim theorems C1, C2, C7, C10 -/

/-- C1: folding `StepWelfordOnlineSum` over a finite sequence of scalar
values starting from `(mean, sigma2, count) = (0, 0, 0)` yields `count`
equal to the sequence length and, in exact arithmetic, `mean` equal to the
sample mean and `sigma2 / count` equal to the population variance obtained
by the naive two-pass computation, for every non-empty sequence. -/
theorem welford_fold_matches_two_pass (L : List ℚ) (h : L ≠ []) :
    (welfordFold L).count = (L.length : ℚ) ∧
    (welfordFold L).mean = listMean L ∧
    (welfordFold L).sigma2 / (welfordFold L).count = popVariance L := by
  rw [welfordFold_eq_summary]
  exact ⟨rfl, rfl, rfl⟩

/-- Witness for C1 at the concrete sequence `[1, 2, 4]`. -/
theorem welford_fold_matches_two_pass_witness :
    (([1, 2, 4] : List ℚ) ≠ []) ∧
    ((welfordFold [1, 2, 4]).count = (([1, 2, 4] : List ℚ).length : ℚ) ∧
      (welfordFold [1, 2, 4]).mean = listMean [1, 2, 4] ∧
      (welfordFold [1, 2, 4]).sigma2 / (welfordFold [1, 2, 4]).count
        = popVariance [1, 2, 4]) :=
  ⟨by simp, welford_fold_matches_two_pass [1, 2, 4] (by simp)⟩

/-- C2: on triples that exactly summarize two finite multisets,
`ChanMergePartition` returns the triple summarizing the union (with
`totalCount = countA + countB`, the weighted merged mean and Chan's merged
M2); and whenever the total count is not positive it sets the output mean
and sigma2 both to zero. -/
theorem chan_merge_partition_correct (A B : List ℚ) (lhs rhs : WTriple)
    (h : lhs.count + rhs.count ≤ 0) :
    chanMergePartition (summary A) (summary B) = summary (A ++ B) ∧
    (chanMergePartition lhs rhs).mean = 0 ∧
    (chanMergePartition lhs rhs).sigma2 = 0 := by
  refine ⟨merge_summary A B, ?_, ?_⟩ <;>
    simp only [chanMergePartition, if_neg (not_lt.mpr h)]

/-- Witness for C2 at the partitions `[1, 2]`, `[3]` and a pair of
zero-count triples. -/
theorem chan_merge_partition_correct_witness :
    (zeroTriple.count + zeroTriple.count ≤ 0) ∧
    (chanMergePartition (summary [1, 2]) (summary [3]) = summary ([1, 2] ++ [3]) ∧
      (chanMergePartition zeroTriple zeroTriple).mean = 0 ∧
      (chanMergePartition zeroTriple zeroTriple).sigma2 = 0) :=
  ⟨by simp [zeroTriple],
    chan_merge_partition_correct [1, 2] [3] zeroTriple zeroTriple (by simp [zeroTriple])⟩

/-- C7: on triples that summarize finite multisets, `ChanMergePartition`
is commutative and associative in exact arithmetic, so any merging order
or grouping yields the same aggregate triple. -/
theorem chan_merge_comm_assoc (A B C : List ℚ) :
    chanMergePartition (summary A) (summary B)
      = chanMergePartition (summary B) (summary A) ∧
    chanMergePartition (chanMergePartition (summary A) (summary B)) (summary C)
      = chanMergePartition (summary A) (chanMergePartition (summary B) (summary C)) := by
  constructor
  · rw [merge_summary, merge_summary, summary_append_comm]
  · rw [merge_summary A B, merge_summary B C, merge_summary (A ++ B) C,
      merge_summary A (B ++ C), List.append_assoc]

/-- C10: the zero triple is a left identity for `ChanMergePartition` on
triples of positive count, and a warp lane whose starting offset lies past
the channel count (as happens when `nchannel < 32`) keeps exactly the zero
triple, so such lanes do not alter the reduced aggregate. -/
theorem chan_merge_zero_left_identity (t : WTriple) (h : 0 < t.count)
    (tid nthread nchannel : ℕ) (vals : ℕ → ℚ) (hc : nchannel ≤ 4 * tid) :
    chanMergePartition zeroTriple t = t ∧
    blockWelfordOnlineSum tid nthread vals nchannel = zeroTriple :=
  ⟨chanMerge_zero_left t h, blockWelford_no_elements tid nthread nchannel vals hc⟩

/-- Witness for C10 at the triple `(5, 7, 3)` and lane 1 of a 3-channel
row. -/
theorem chan_merge_zero_left_identity_witness :
    ((0 : ℚ) < (⟨5, 7, 3⟩ : WTriple).count) ∧
    (chanMergePartition zeroTriple ⟨5, 7, 3⟩ = (⟨5, 7, 3⟩ : WTriple) ∧
      blockWelfordOnlineSum 1 32 (fun k => (k : ℚ)) 3 = zeroTriple) :=
  ⟨zero_lt_three,
    chan_merge_zero_left_identity ⟨5, 7, 3⟩ zero_lt_three 1 32 3 (fun k => (k : ℚ))
      (by decide)⟩

/-- C8: in the intra-warp reduction, after the five exchange-and-merge
rounds with source lane `(threadIdx.x + 2^l) % 32` for `l = 0..4`, every
one of the 32 lanes holds the aggregate of all 32 lanes' triples — in
exact arithmetic the same summary triple on every lane (an all-reduce,
not a single-root reduce). -/
theorem warp_reduction_all_lanes (Ls : ℕ → List ℚ) (i : ℕ) (hi : i < 32) :
    warpAllReduce (fun j => summary (Ls j)) i
      = summary (((List.range 32).map Ls).flatten) := by
  have h := warpAllReduce_seg Ls (fun j => summary (Ls j)) (fun _ _ => rfl) i hi
  rw [h, summary_seg_rotate Ls i hi, seg_eq_flatten Ls 32 0 (by omega)]
  have hfun : (fun k => Ls (0 + k)) = Ls := funext fun k => congrArg Ls (Nat.zero_add k)
  rw [hfun]

/-- Witness for C8 at lane 7 with lane contents `Ls j = [j]`. -/
theorem warp_reduction_all_lanes_witness :
    (7 < 32) ∧
    warpAllReduce (fun j => summary [(j : ℚ)]) 7
      = summary (((List.range 32).map (fun j => [(j : ℚ)])).flatten) :=
  ⟨by decide, warp_reduction_all_lanes (fun j => [(j : ℚ)]) 7 (by decide)⟩

end LayerNormCu

namespace LayerNormCu

/-! ### The forward kernel `LayerNormFusedForwardKernelContig`
(layer_norm.cu lines 148-243), for launches with `blockDim = (32, 1)` —
the dispatch choice whenever `nchannel ≤ 32` (lines 279-283), in which
case the inter-warp shared-memory reduction is skipped (line 182). -/

/-- Statistics phase for one row: each of the 32 lanes accumulates its
strided share via `BlockWelfordOnlineSum` (line 168, `nthread = 32`), the
intra-warp all-reduce merges the triples (lines 175-181), and lane 0's
result is taken, with `sigma2` divided by `nchannel` (lines 183-184).
Returns the row's `(mean, variance)`. -/
def forwardRowStats (nchannel : ℕ) (vals : ℕ → ℚ) : ℚ × ℚ :=
  let red := warpAllReduce fun tid => blockWelfordOnlineSum tid 32 vals nchannel
  ((red 0).mean, (red 0).sigma2 / (nchannel : ℚ))

/-- Output phase for one row in the absent-affine specialization
(`gamma == NULL && beta == NULL`, lines 232-236), plus the saved
statistics written by lane `(0, 0)` (lines 238-241).  The device square
root is an opaque parameter `sqrtFn`; the kernel computes
`std_eps = sqrt(sigma2 + eps)` and `invstd_eps = 1 / std_eps` (lines
216-217).  Returns `(output column, saved mean, saved std)`. -/
def forwardRowNoAffine (nchannel : ℕ) (eps : ℚ) (sqrtFn : ℚ → ℚ)
    (vals : ℕ → ℚ) : (ℕ → ℚ) × ℚ × ℚ :=
  let s := forwardRowStats nchannel vals
  let std_eps := sqrtFn (s.2 + eps)
  let invstd_eps := 1 / std_eps
  (fun i => invstd_eps * (vals i - s.1), s.1, std_eps)

/-- The forward kernel on a contiguous `(nbatch, nchannel)` input in the
absent-affine specialization: row `bid` reads the column values at
`in_data + bid * nchannel` (line 167). -/
def layerNormFwdNoAffine (nchannel : ℕ) (eps : ℚ) (sqrtFn : ℚ → ℚ)
    (in_data : ℕ → ℚ) (bid : ℕ) : (ℕ → ℚ) × ℚ × ℚ :=
  forwardRowNoAffine nchannel eps sqrtFn fun i => in_data (bid * nchannel + i)

/-- For a 3-channel row, lane 0 accumulates all three values sequentially
and every other lane accumulates nothing. -/
lemma forwardRowStats_three (vals : ℕ → ℚ) :
    forwardRowStats 3 vals
      = (listMean [vals 0, vals 1, vals 2], listM2 [vals 0, vals 1, vals 2] / 3) := by
  classical
  have hinit : ∀ j, j < 32 →
      blockWelfordOnlineSum j 32 vals 3
        = summary (if j = 0 then [vals 0, vals 1, vals 2] else []) := by
    intro j hj
    rcases Nat.eq_zero_or_pos j with rfl | hpos
    · rw [if_pos rfl, ← welfordFold_eq_summary]
      rfl
    · rw [if_neg (Nat.pos_iff_ne_zero.mp hpos),
        blockWelford_no_elements j 32 3 vals (by omega), summary_nil]
  have h := warpAllReduce_seg (fun j => if j = 0 then [vals 0, vals 1, vals 2] else [])
    (fun tid => blockWelfordOnlineSum tid 32 vals 3) hinit 0 (by omega)
  have hseg : seg (fun j => if j = 0 then [vals 0, vals 1, vals 2] else []) 0 32
      = [vals 0, vals 1, vals 2] := by
    have hsplit := seg_add (fun j => if j = 0 then [vals 0, vals 1, vals 2] else []) 1 0 31
    rw [Nat.zero_add] at hsplit
    rw [show (32 : ℕ) = 1 + 31 from rfl, hsplit, seg_one, seg_nil _ 31 1 ?_]
    · simp
    · intro k hk
      rw [Nat.mod_eq_of_lt (by omega)]
      simp [Nat.succ_ne_zero]
  rw [forwardRowStats]
  rw [h, hseg]
  have hc : ((3 : ℕ) : ℚ) = 3 := by norm_num
  rw [summary, hc]

/-- C9, counterexample: the claim (and the spec's concrete scenario) says
the forward kernel writes row means `[1, 2]` for input `[[0,1,2],[3,4,5]]`,
but the saved mean of the second row `[3, 4, 5]` is `4`, not `2`. -/
theorem forward_concrete_row1_mean_counterexample :
    (layerNormFwdNoAffine 3 (1 / 100000) id (fun k => (k : ℚ)) 1).2.1 = 4 ∧
    (4 : ℚ) ≠ 2 := by
  constructor
  · rw [layerNormFwdNoAffine, forwardRowNoAffine, forwardRowStats_three]
    norm_num [listMean, lsum]
  · norm_num

/-- C9 (amended): for `batchCount = 2`, `channelCount = 3`, input
`[[0,1,2],[3,4,5]]`, absent affine parameters and `epsilon = 1e-5`, the
forward kernel writes row means `[1, 4]` (the spec's scenario misstates
the second as `2`), computes population variances `[2/3, 2/3]`, writes
row stds `sqrt(2/3 + 1e-5)`, and each output element equals
`invStd * (input - mean)` in the absent-affine specialization — so both
normalized rows are `[-invStd, 0, invStd]` with
`invStd = 1 / sqrt(2/3 + 1e-5) ≈ 1.2247`. -/
theorem forward_concrete_scenario (sqrtFn : ℚ → ℚ) :
    (layerNormFwdNoAffine 3 (1 / 100000) sqrtFn (fun k => (k : ℚ)) 0).2.1 = 1 ∧
    (layerNormFwdNoAffine 3 (1 / 100000) sqrtFn (fun k => (k : ℚ)) 1).2.1 = 4 ∧
    (forwardRowStats 3 fun i => ((0 * 3 + i : ℕ) : ℚ)).2 = 2 / 3 ∧
    (forwardRowStats 3 fun i => ((1 * 3 + i : ℕ) : ℚ)).2 = 2 / 3 ∧
    (layerNormFwdNoAffine 3 (1 / 100000) sqrtFn (fun k => (k : ℚ)) 0).2.2
      = sqrtFn (2 / 3 + 1 / 100000) ∧
    (layerNormFwdNoAffine 3 (1 / 100000) sqrtFn (fun k => (k : ℚ)) 1).2.2
      = sqrtFn (2 / 3 + 1 / 100000) ∧
    (layerNormFwdNoAffine 3 (1 / 100000) sqrtFn (fun k => (k : ℚ)) 0).1 0
      = 1 / sqrtFn (2 / 3 + 1 / 100000) * (0 - 1) ∧
    (layerNormFwdNoAffine 3 (1 / 100000) sqrtFn (fun k => (k : ℚ)) 0).1 1
      = 1 / sqrtFn (2 / 3 + 1 / 100000) * (1 - 1) ∧
    (layerNormFwdNoAffine 3 (1 / 100000) sqrtFn (fun k => (k : ℚ)) 0).1 2
      = 1 / sqrtFn (2 / 3 + 1 / 100000) * (2 - 1) ∧
    (layerNormFwdNoAffine 3 (1 / 100000) sqrtFn (fun k => (k : ℚ)) 1).1 0
      = 1 / sqrtFn (2 / 3 + 1 / 100000) * (3 - 4) ∧
    (layerNormFwdNoAffine 3 (1 / 100000) sqrtFn (fun k => (k : ℚ)) 1).1 1
      = 1 / sqrtFn (2 / 3 + 1 / 100000) * (4 - 4) ∧
    (layerNormFwdNoAffine 3 (1 / 100000) sqrtFn (fun k => (k : ℚ)) 1).1 2
      = 1 / sqrtFn (2 / 3 + 1 / 100000) * (5 - 4) := by
  simp only [layerNormFwdNoAffine, forwardRowNoAffine, forwardRowStats_three]
  norm_num [listMean, listM2, sqDevSum, lsum]

end LayerNormCu

namespace LayerNormCu

/-! ### The backward parameter-gradient kernel
`LayerNormFusedBackwardKernel_GammaBeta` (layer_norm.cu lines 320-415)

The launch uses `dimBlock = (32, 4)` — so `nthread = 128` — and
`LOAD_UNROLL = 4` (lines 542-543).  Thread `tid` owns the 4-wide chunks
starting at `l = 4 * tid`, striding by `4 * nthread`; a remainder loop
follows.  For a channel `c` the local accumulators sum over the batch
dimension, reading the saved statistics at `mean_data[c]` and
`std_data[c]` — the channel index, exactly as lines 343-344 and 382-383
index them.  Threads own disjoint channels in the unrolled region; the
embedding applies the threads sequentially to the buffer pair
`(gamma_grad, beta_grad)`. -/

/-- Arguments and template flags of the kernel.  `need_gamma` / `need_beta`
model `gamma_grad != nullptr` / `beta_grad != nullptr` (lines 335-336);
`gamma_addto` / `beta_addto` are the template parameters.  The remainder
loop's guards at lines 396 and 405 reference identifiers `no_gamma` /
`no_beta` that are declared nowhere in the kernel; they are modelled as
two further Boolean inputs. -/
structure GBArgs where
  nbatch : ℕ
  nchannel : ℕ
  in_data : ℕ → ℚ
  out_grad : ℕ → ℚ
  mean_data : ℕ → ℚ
  std_data : ℕ → ℚ
  need_gamma : Bool
  need_beta : Bool
  gamma_addto : Bool
  beta_addto : Bool
  no_gamma : Bool
  no_beta : Bool

/-- The local gamma-gradient accumulator for channel `c` after the batch
loop (lines 353-365): `Σ_b (x[b,c] - mean_data[c]) / std_data[c] * og[b,c]`. -/
def gbGammaSum (nbatch nchannel : ℕ) (in_data out_grad mean_data std_data : ℕ → ℚ)
    (c : ℕ) : ℚ :=
  ((List.range nbatch).map fun b =>
    (in_data (b * nchannel + c) - mean_data c) / std_data c
      * out_grad (b * nchannel + c)).sum

/-- The local beta-gradient accumulator for channel `c` (line 362):
`Σ_b og[b,c]`. -/
def gbBetaSum (nbatch nchannel : ℕ) (out_grad : ℕ → ℚ) (c : ℕ) : ℚ :=
  ((List.range nbatch).map fun b => out_grad (b * nchannel + c)).sum

/-- Pointwise update of a device buffer modelled as a total function. -/
def updateBuf (buf : ℕ → ℚ) (i : ℕ) (v : ℚ) : ℕ → ℚ :=
  fun j => if j = i then v else buf j

/-- Write-back of one 4-wide chunk at base `l` (lines 366-378).  The
destination is only touched under the addto flags: this loop has no
overwrite branch in the source. -/
def gbWriteChunk (a : GBArgs) (l : ℕ) (bufs : (ℕ → ℚ) × (ℕ → ℚ)) :
    (ℕ → ℚ) × (ℕ → ℚ) :=
  [0, 1, 2, 3].foldl (fun bufs i =>
    (if a.need_gamma && a.gamma_addto then
        updateBuf bufs.1 (l + i) (bufs.1 (l + i)
          + gbGammaSum a.nbatch a.nchannel a.in_data a.out_grad a.mean_data a.std_data (l + i))
      else bufs.1,
     if a.need_beta && a.beta_addto then
        updateBuf bufs.2 (l + i) (bufs.2 (l + i)
          + gbBetaSum a.nbatch a.nchannel a.out_grad (l + i))
      else bufs.2)) bufs

/-- The 4-wide unrolled loop (lines 339-379), fuel-structural as in
`blockWelfordLoop1`; returns the final buffers and `l`. -/
def gbLoop1 (a : GBArgs) (nthread : ℕ) :
    ℕ → ℕ → (ℕ → ℚ) × (ℕ → ℚ) → ((ℕ → ℚ) × (ℕ → ℚ)) × ℕ
  | 0, l, bufs => (bufs, l)
  | fuel + 1, l, bufs =>
    if l + 3 < a.nchannel then
      gbLoop1 a nthread fuel (l + 4 * nthread) (gbWriteChunk a l bufs)
    else (bufs, l)

/-- Write-back of one remainder channel `l` (lines 396-413), guarded by
the undeclared `no_gamma` / `no_beta` identifiers; here the addto flag
selects between accumulate and overwrite. -/
def gbWriteOne (a : GBArgs) (l : ℕ) (bufs : (ℕ → ℚ) × (ℕ → ℚ)) :
    (ℕ → ℚ) × (ℕ → ℚ) :=
  (if !a.no_gamma && a.need_gamma then
      (if a.gamma_addto then
        updateBuf bufs.1 l (bufs.1 l
          + gbGammaSum a.nbatch a.nchannel a.in_data a.out_grad a.mean_data a.std_data l)
      else
        updateBuf bufs.1 l
          (gbGammaSum a.nbatch a.nchannel a.in_data a.out_grad a.mean_data a.std_data l))
    else bufs.1,
   if !a.no_beta && a.need_beta then
      (if a.beta_addto then
        updateBuf bufs.2 l (bufs.2 l + gbBetaSum a.nbatch a.nchannel a.out_grad l)
      else
        updateBuf bufs.2 l (gbBetaSum a.nbatch a.nchannel a.out_grad l))
    else bufs.2)

/-- The remainder loop (lines 381-414). -/
def gbLoop2 (a : GBArgs) : ℕ → ℕ → (ℕ → ℚ) × (ℕ → ℚ) → (ℕ → ℚ) × (ℕ → ℚ)
  | 0, _, bufs => bufs
  | fuel + 1, l, bufs =>
    if l < a.nchannel then gbLoop2 a fuel (l + 1) (gbWriteOne a l bufs)
    else bufs

/-- One thread of the kernel: unrolled loop from `l = 4 * tid`, then the
remainder loop from wherever it stopped (lines 337-414). -/
def gammaBetaThread (a : GBArgs) (nthread tid : ℕ)
    (bufs : (ℕ → ℚ) × (ℕ → ℚ)) : (ℕ → ℚ) × (ℕ → ℚ) :=
  let r := gbLoop1 a nthread a.nchannel (4 * tid) bufs
  gbLoop2 a a.nchannel r.2 r.1

/-- The whole kernel: the `nthread` threads applied to the buffer pair
(sequentialized; threads write disjoint channels in the unrolled region). -/
def gammaBetaKernel (a : GBArgs) (nthread : ℕ)
    (bufs : (ℕ → ℚ) × (ℕ → ℚ)) : (ℕ → ℚ) × (ℕ → ℚ) :=
  (List.range nthread).foldl (fun bufs tid => gammaBetaThread a nthread tid bufs) bufs

lemma gbLoop1_exit (a : GBArgs) (nthread fuel l : ℕ) (bufs : (ℕ → ℚ) × (ℕ → ℚ))
    (h : a.nchannel ≤ l + 3) :
    gbLoop1 a nthread fuel l bufs = (bufs, l) := by
  cases fuel with
  | zero => rfl
  | succ fuel => rw [gbLoop1, if_neg (by omega)]

lemma gbLoop2_exit (a : GBArgs) (fuel l : ℕ) (bufs : (ℕ → ℚ) × (ℕ → ℚ))
    (h : a.nchannel ≤ l) :
    gbLoop2 a fuel l bufs = bufs := by
  cases fuel with
  | zero => rfl
  | succ fuel => rw [gbLoop2, if_neg (by omega)]

/-- A thread whose starting offset is past the channel count does
nothing. -/
lemma gammaBetaThread_id (a : GBArgs) (nthread tid : ℕ)
    (bufs : (ℕ → ℚ) × (ℕ → ℚ)) (hc : a.nchannel ≤ 4 * tid) :
    gammaBetaThread a nthread tid bufs = bufs := by
  simp only [gammaBetaThread, gbLoop1_exit a nthread a.nchannel (4 * tid) bufs (by omega)]
  exact gbLoop2_exit a a.nchannel (4 * tid) bufs hc

lemma foldl_fixed {α β : Type} (f : α → β → α) (l : List β)
    (h : ∀ x ∈ l, ∀ b, f b x = b) : ∀ b, l.foldl f b = b := by
  induction l with
  | nil => intro b; rfl
  | cons x xs ih =>
    intro b
    rw [List.foldl_cons, h x (List.mem_cons_self x xs),
      ih fun y hy => h y (List.mem_cons_of_mem x hy)]

/-- With at most 4 channels, only thread 0 of the launch does any work. -/
lemma gammaBetaKernel_eq_thread0 (a : GBArgs) (m : ℕ)
    (bufs : (ℕ → ℚ) × (ℕ → ℚ)) (hc : a.nchannel ≤ 4) :
    gammaBetaKernel a (m + 1) bufs = gammaBetaThread a (m + 1) 0 bufs := by
  rw [gammaBetaKernel, List.range_succ_eq_map, List.foldl_cons]
  refine foldl_fixed _ _ ?_ _
  intro x hx b
  rcases List.mem_map.mp hx with ⟨k, _, rfl⟩
  exact gammaBetaThread_id a (m + 1) k.succ b (by omega)

/-- With exactly 4 channels, thread 0 performs exactly one unrolled chunk
at base 0 and no remainder iterations. -/
lemma gammaBetaThread0_four (a : GBArgs) (m : ℕ)
    (bufs : (ℕ → ℚ) × (ℕ → ℚ)) (h4 : a.nchannel = 4) :
    gammaBetaThread a (m + 1) 0 bufs = gbWriteChunk a 0 bufs := by
  simp only [gammaBetaThread, h4]
  rw [show (4 : ℕ) = 3 + 1 from rfl, gbLoop1, if_pos (by omega),
    gbLoop1_exit a (m + 1) 3 (4 * 0 + 4 * (m + 1)) _ (by omega)]
  exact gbLoop2_exit a (3 + 1) (4 * 0 + 4 * (m + 1)) _ (by omega)

/-- The full launch of the kernel (lines 548-564): `dimBlock = (32, 4)`,
i.e. 128 threads, restricted here to `nchannel = 4` inputs where only
thread 0 does work. -/
lemma gammaBetaKernel_four (a : GBArgs) (bufs : (ℕ → ℚ) × (ℕ → ℚ))
    (h4 : a.nchannel = 4) :
    gammaBetaKernel a 128 bufs = gbWriteChunk a 0 bufs := by
  have h1 : gammaBetaKernel a 128 bufs = gammaBetaThread a 128 0 bufs :=
    gammaBetaKernel_eq_thread0 a 127 bufs (by omega)
  rw [h1]
  exact gammaBetaThread0_four a 127 bufs h4

/-- The constant-one device buffer. -/
def constOne : ℕ → ℚ := fun _ => 1

/-- The constant-zero device buffer. -/
def constZero : ℕ → ℚ := fun _ => 0

/-- The scale gradient as the claim states it (spec sections 4.6 and 8):
`scaleGrad[c] = Σ_b (input[b,c] - mean[b]) · invStd[b] · outGrad[b,c]`,
with the saved per-row statistics indexed by the row `b` of each summand. -/
def specScaleGrad (nbatch nchannel : ℕ)
    (in_data out_grad mean_data std_data : ℕ → ℚ) (c : ℕ) : ℚ :=
  ((List.range nbatch).map fun b =>
    (in_data (b * nchannel + c) - mean_data b) * (1 / std_data b)
      * out_grad (b * nchannel + c)).sum

/-- Inputs exhibiting the statistics-indexing divergence: 4 rows and 4
channels, all data zero, all output gradients one, per-row means
`[0, 10, 20, 30]`, all stds one; gamma gradient requested in accumulate
mode into a zeroed buffer. -/
def c3Mean : ℕ → ℚ := fun b => 10 * (b : ℚ)

def c3Args : GBArgs :=
  ⟨4, 4, constZero, constOne, c3Mean, constOne, true, false, true, false, false, false⟩

def c4Args : GBArgs :=
  ⟨1, 4, (fun k => (k : ℚ)), constOne, constZero, constOne,
    true, true, false, false, false, false⟩

def c4ArgsAddto : GBArgs :=
  ⟨1, 4, (fun k => (k : ℚ)), constOne, constZero, constOne,
    true, true, true, true, false, false⟩

def c6Args : GBArgs :=
  ⟨1, 4, constOne, constOne, constZero, constOne, true, false, true, false, false, false⟩

lemma range_four : List.range 4 = [0, 1, 2, 3] := rfl

lemma range_one : List.range 1 = [0] := rfl

end LayerNormCu

namespace LayerNormCu

/-! ### Claim theorems C3, C4 -/

/-- C3 (failing-input evaluation): the kernel reads the saved statistics
at the channel index, not the row index.  With all inputs zero, unit
output gradients and per-row means `[0, 10, 20, 30]`, the kernel
accumulates `-40` into `scaleGrad[1]` (it uses `mean_data[1] = 10` for
every row), while the claimed per-row-indexed sum is `-60`. -/
theorem gammaBeta_stats_indexed_by_channel :
    (gammaBetaKernel c3Args 128 (constZero, constZero)).1 1 = -40 ∧
    specScaleGrad 4 4 constZero constOne c3Mean constOne 1 = -60 ∧
    ((-40 : ℚ) ≠ -60) := by
  refine ⟨?_, ?_, by norm_num⟩
  · rw [gammaBetaKernel_four c3Args (constZero, constZero) rfl]
    norm_num [gbWriteChunk, gbGammaSum, gbBetaSum, updateBuf, c3Args, c3Mean,
      constZero, constOne, range_four]
  · norm_num [specScaleGrad, c3Mean, constZero, constOne, range_four]

/-- C4 (failing-input evaluation): in Overwrite mode the 4-wide unrolled
loop writes nothing at all (its write-back has no overwrite branch), so a
buffer pre-seeded with `55` (resp. `7`) still holds `55` (resp. `7`)
although the computed gradients at channel 1 are `1`; in AccumulateInto
mode, invoking the kernel twice on a buffer pre-seeded with `55` does
yield `55 + 1 + 1`. -/
theorem gammaBeta_overwrite_chunk_not_written :
    (gammaBetaKernel c4Args 128 (fun _ => 55, fun _ => 7)).1 1 = 55 ∧
    (gammaBetaKernel c4Args 128 (fun _ => 55, fun _ => 7)).2 1 = 7 ∧
    gbGammaSum 1 4 (fun k => (k : ℚ)) constOne constZero constOne 1 = 1 ∧
    gbBetaSum 1 4 constOne 1 = 1 ∧
    ((55 : ℚ) ≠ 1) ∧ ((7 : ℚ) ≠ 1) ∧
    (gammaBetaKernel c4ArgsAddto 128
        (gammaBetaKernel c4ArgsAddto 128 (fun _ => 55, fun _ => 7))).1 1
      = 55 + (1 + 1) := by
  refine ⟨?_, ?_, ?_, ?_, by norm_num, by norm_num, ?_⟩
  · rw [gammaBetaKernel_four c4Args _ rfl]
    norm_num [gbWriteChunk, c4Args]
  · rw [gammaBetaKernel_four c4Args _ rfl]
    norm_num [gbWriteChunk, c4Args]
  · norm_num [gbGammaSum, constZero, constOne, range_one]
  · norm_num [gbBetaSum, constOne, range_one]
  · rw [gammaBetaKernel_four c4ArgsAddto _ rfl, gammaBetaKernel_four c4ArgsAddto _ rfl]
    norm_num [gbWriteChunk, gbGammaSum, gbBetaSum, updateBuf, c4ArgsAddto,
      constZero, constOne, range_one]

end LayerNormCu

namespace LayerNormCu

/-! ### The backward dispatch
`LayerNormGradGPUContig` (lines 508-591) and `LayerNormGradCompute`
(lines 593-611). -/

/-- The mxnet output request modes `kNullOp`, `kWriteTo`, `kWriteInplace`,
`kAddTo`. -/
inductive OpReq
  | nullOp
  | writeTo
  | writeInplace
  | addTo
  deriving DecidableEq, Repr

/-- The buffers bound at the top of `LayerNormGradGPUContig` (lines
514-521): `inputs = [out_grad, in_data, gamma, mean, std]` and
`outputs = [data_grad, gamma_grad, beta_grad]`. -/
inductive GradBuf
  | outGradIn
  | inDataIn
  | gammaParam
  | meanIn
  | stdIn
  | dataGradOut
  | gammaGradOut
  | betaGradOut
  deriving DecidableEq, Repr

/-- `inputs[i]` of the backward call (lines 514-518). -/
def gradInput : ℕ → GradBuf := fun i =>
  match i with
  | 0 => GradBuf.outGradIn
  | 1 => GradBuf.inDataIn
  | 2 => GradBuf.gammaParam
  | 3 => GradBuf.meanIn
  | _ => GradBuf.stdIn

/-- `outputs[i]` of the backward call (lines 519-521). -/
def gradOutput : ℕ → GradBuf := fun i =>
  match i with
  | 0 => GradBuf.dataGradOut
  | 1 => GradBuf.gammaGradOut
  | _ => GradBuf.betaGradOut

/-- Line 546: the pointer passed as the kernel's `gamma_grad` argument is
`gamma.dptr` — the affine parameter buffer `inputs[2]` — whenever
`gamma_req != kNullOp`, else null.  (Line 547 likewise passes
`beta.dptr`, a name not even bound in this function.) -/
def gammaGradArg (gamma_req : OpReq) : Option GradBuf :=
  if gamma_req = OpReq.nullOp then none else some (gradInput 2)

/-- Which kernels `LayerNormGradGPUContig` launches and with which addto
template flags (lines 544-590), given the three request modes.  `none`
models a fatal `CHECK_NE(req, kWriteInplace)` failure (lines 534-536),
raised before any launch. -/
structure GradLaunch where
  gammaBetaLaunched : Bool
  gammaAddto : Bool
  betaAddto : Bool
  dataLaunched : Bool
  dataAddto : Bool
  deriving DecidableEq, Repr

def layerNormGradGPUContigLaunch (data_req gamma_req beta_req : OpReq) :
    Option GradLaunch :=
  if data_req = OpReq.writeInplace ∨ gamma_req = OpReq.writeInplace
      ∨ beta_req = OpReq.writeInplace then
    none
  else
    some { gammaBetaLaunched :=
             decide (gamma_req ≠ OpReq.nullOp) || decide (beta_req ≠ OpReq.nullOp)
           gammaAddto := decide (gamma_req = OpReq.addTo)
           betaAddto := decide (beta_req = OpReq.addTo)
           dataLaunched := decide (data_req ≠ OpReq.nullOp)
           dataAddto := decide (data_req = OpReq.addTo) }

/-- Outcome of a backward dispatch. -/
inductive GradDispatch
  | fatal
  | nothingDone
  | launched (l : GradLaunch)
  deriving DecidableEq, Repr

/-- `LayerNormGradCompute` (lines 593-611) on the contiguous
(`axis == ndim - 1`) path: early return when `req[0] == kNullOp` (line
599 — nothing at all is computed), fatal `CHECK_NE(req[0], kAddTo)`
(line 600), otherwise hand-off to `LayerNormGradGPUContig`. -/
def layerNormGradComputeDispatch (data_req gamma_req beta_req : OpReq) :
    GradDispatch :=
  if data_req = OpReq.nullOp then GradDispatch.nothingDone
  else if data_req = OpReq.addTo then GradDispatch.fatal
  else
    match layerNormGradGPUContigLaunch data_req gamma_req beta_req with
    | none => GradDispatch.fatal
    | some l => GradDispatch.launched l

/-! ### Claim theorems C5, C6 -/

/-- C5 (failing-input evaluation): the backward entry point aborts on
`kAddTo` for dataGrad (although `LayerNormGradGPUContig` itself supports
it, launching the data kernel with the addto template flag), returns
without computing anything — including a requested scaleGrad/shiftGrad —
when dataGrad is `kNullOp`, and does reject `kWriteInplace` on each of
the three gradient outputs before launch. -/
theorem grad_req_mode_handling :
    layerNormGradComputeDispatch OpReq.addTo OpReq.writeTo OpReq.writeTo
      = GradDispatch.fatal ∧
    layerNormGradComputeDispatch OpReq.nullOp OpReq.writeTo OpReq.writeTo
      = GradDispatch.nothingDone ∧
    layerNormGradGPUContigLaunch OpReq.addTo OpReq.writeTo OpReq.writeTo
      = some ⟨true, false, false, true, true⟩ ∧
    layerNormGradComputeDispatch OpReq.writeInplace OpReq.writeTo OpReq.writeTo
      = GradDispatch.fatal ∧
    layerNormGradComputeDispatch OpReq.writeTo OpReq.writeInplace OpReq.writeTo
      = GradDispatch.fatal ∧
    layerNormGradComputeDispatch OpReq.writeTo OpReq.writeTo OpReq.writeInplace
      = GradDispatch.fatal := by
  decide

/-- C6 (failing-input evaluation): the dispatcher binds the kernel's
`gamma_grad` pointer to the affine parameter buffer `gamma` (= inputs[2]),
not to the `gamma_grad` output (= outputs[1]); and the kernel does write
through that pointer — on a 1×4 input of ones with unit output gradients,
zero means and unit stds, accumulate mode changes the pointed-to buffer at
channel 0 from `0` to `1`.  So the backward call writes the affine
parameter buffer. -/
theorem backward_writes_gamma_param :
    gammaGradArg OpReq.addTo = some GradBuf.gammaParam ∧
    gradOutput 1 = GradBuf.gammaGradOut ∧
    GradBuf.gammaParam ≠ GradBuf.gammaGradOut ∧
    (gammaBetaKernel c6Args 128 (constZero, constZero)).1 0 = 1 ∧
    ((1 : ℚ) ≠ 0) := by
  refine ⟨by decide, by decide, by decide, ?_, by norm_num⟩
  rw [gammaBetaKernel_four c6Args _ rfl]
  norm_num [gbWriteChunk, gbGammaSum, gbBetaSum, updateBuf, c6Args,
    constZero, constOne, range_one]

end LayerNormCu
